import Mathlib

/-!
Verification of the storage core of an xv6-style user-space filesystem:
the redo-log transaction manager (`logger.rs`), the free-block bitmap
allocator (`bitmap.rs`), the inode block-map and truncate (`vfs.rs`,
`disk.rs`) and the raw on-disk inode layout (`inode.rs`, `common.rs`).

The embedding is shallow and single-threaded: a block is a byte function,
the device is a block function, the block cache's live buffers are values
carried in the log table (the cache guarantees at most one live buffer per
block number, so a buffer's bytes are the cache content for its block).
Mutex acquisition is not modeled; where the source would self-deadlock the
model still follows the source's sequence of buffer reads and writes.
Machine integers are `Nat` with explicit `% 2 ^ w` where wrap-around
matters; a Rust panic or failed `assert!` is the `panic` constructor.
-/

set_option autoImplicit false

/-! ## Constants (`common.rs`, `lib.rs`) -/

def BSIZE : Nat := 1024

def MAXOPBLOCKS : Nat := 10

def LOGSIZE : Nat := MAXOPBLOCKS * 3

def NDIRECT : Nat := 12

def NINDIRECT : Nat := BSIZE / 4

def MAXFILE : Nat := NDIRECT + NINDIRECT

def BPB : Nat := BSIZE * 8

/-! ## Bytes, blocks and little-endian u32 views -/

/-- A block's content: byte index to byte value (values kept below 256). -/
def Block : Type := Nat → Nat

/-- All-zero block content. -/
def zeroBlock : Block := fun _ => 0

/-- Block whose every byte is `v`. -/
def constBlock (v : Nat) : Block := fun _ => v

/-- Little-endian u32 read at byte offset `off` (`get_ref`-style view). -/
def readU32 (blk : Block) (off : Nat) : Nat :=
  blk off + 256 * blk (off + 1) + 256 ^ 2 * blk (off + 2) + 256 ^ 3 * blk (off + 3)

/-- Little-endian u32 store at byte offset `off` (`get_mut`-style view). -/
def writeU32 (blk : Block) (off v : Nat) : Block :=
  fun i =>
    if i = off then v % 256
    else if i = off + 1 then v / 256 % 256
    else if i = off + 2 then v / 256 ^ 2 % 256
    else if i = off + 3 then v / 256 ^ 3 % 256
    else blk i

/-- The header field `n` is an `i32`; a loop `for i in 0..n` over a negative
`n` (byte pattern at or above `2 ^ 31`) runs zero times. -/
def i32Loop (v : Nat) : Nat := if v < 2 ^ 31 then v else 0

/-- Outcome of code that may hit a Rust `panic!` or a failed `assert!`. -/
inductive PanicOr (α : Type) where
  | panic
  | ret (a : α)

/-! ## The log manager (`logger.rs`)

State of `LogManager` plus the parts of the environment it touches: the
device (`disk`) and the live buffers.  A `BufC` is one `BlockCache`: the
block number it was created for and its in-memory bytes.  `table` is the
`Vec<(blockno, Arc<Mutex<BlockCache>>)>`; during commit the table's pinned
buffers are the only live buffers, so `get_block_cache` returns the table
buffer for a block number when one exists and otherwise reads the device
(`BlockCacheManager::get_block_cache`, `blk_cch.rs`). -/

structure BufC where
  blockno : Nat
  data : Block

structure LogSt where
  start : Nat
  size : Nat
  outstanding : Nat
  disk : Nat → Block
  table : List (Nat × BufC)

/-- `get_block_cache` as seen from the log: the unique live buffer for `b`
if one is pinned in the table, else a fresh read of block `b`. -/
def getBufData (s : LogSt) (b : Nat) : Block :=
  match s.table.find? (fun p => p.2.blockno == b) with
  | some p => p.2.data
  | none => s.disk b

/-- Write buffer bytes `d` back: `BlockCache::write` targets the buffer's
own `blockno`; any table entry pinning the buffer for `b` sees the bytes. -/
def bufWriteback (s : LogSt) (b : Nat) (d : Block) : LogSt :=
  { s with
    table := s.table.map (fun p => if p.2.blockno = b then (p.1, ⟨b, d⟩) else p)
    disk := fun x => if x = b then d else s.disk x }

/-- One iteration of `LogManager::install_trans` (`logger.rs:31-44`): lock
table entry `i` as `dst`, get the log block `start + i + 1` as `src`,
`memmove(dst, src)` (copy `src` bytes into `dst`'s cache), then
`dst.write()` — a device write at `dst`'s own block number. -/
def installStep (s : LogSt) (i : Nat) : LogSt :=
  match s.table.get? i with
  | none => s
  | some (h, dst) =>
    let src := getBufData s (s.start + i + 1)
    { s with
      table := s.table.set i (h, ⟨dst.blockno, src⟩)
      disk := fun b => if b = dst.blockno then src else s.disk b }

/-- `LogManager::install_trans` (`logger.rs:31-44`). -/
def LogManager.install_trans (s : LogSt) : LogSt :=
  (List.range s.table.length).foldl installStep s

/-- One iteration of `LogManager::write_log` (`logger.rs:65-76`).  The
source locks the table entry as `_dst_guard`, gets log block
`start + i + 1` as `src`, and calls `memmove(&mut _dst_guard, &_src_guard)`
— the argument order copies the log block's bytes INTO the table buffer —
then `_dst_guard.write()` writes the table buffer to its own (home) block
number.  The dataflow is identical to `installStep`; the comment on the
source (`data_blocks(disk) -> log_blocks(disk)`, `copy data into log`)
says the opposite of what the statements do. -/
def writeLogStep (s : LogSt) (i : Nat) : LogSt :=
  match s.table.get? i with
  | none => s
  | some (h, dst) =>
    let src := getBufData s (s.start + i + 1)
    { s with
      table := s.table.set i (h, ⟨dst.blockno, src⟩)
      disk := fun b => if b = dst.blockno then src else s.disk b }

/-- `LogManager::write_log` (`logger.rs:65-76`). -/
def LogManager.write_log (s : LogSt) : LogSt :=
  (List.range s.table.length).foldl writeLogStep s

/-- `LogManager::write_head` (`logger.rs:47-62`): get the header block
`start`, view it as `LogHeader`, then `for i in 0..log_hdr.n` — the bound
is the `n` already in the buffer, read from disk; `n` itself is never
assigned — store `table[i].0` (or `0` past the table) into `blocks[i]`,
and write the buffer back. `n` sits at offset 0, `blocks[i]` at
`4 + 4 * i`. -/
def LogManager.write_head (s : LogSt) : LogSt :=
  let hdr := getBufData s s.start
  let n := i32Loop (readU32 hdr 0)
  let hdr1 := (List.range n).foldl
    (fun b i =>
      match s.table.get? i with
      | some p => writeU32 b (4 + 4 * i) p.1
      | none => writeU32 b (4 + 4 * i) 0)
    hdr
  bufWriteback s s.start hdr1

/-- `LogManager::commit` (`logger.rs:78-86`). -/
def LogManager.commit (s : LogSt) : LogSt :=
  if s.table.isEmpty then s
  else
    let s1 := LogManager.write_log s
    let s2 := LogManager.write_head s1
    let s3 := LogManager.install_trans s2
    let s4 := { s3 with table := [] }
    LogManager.write_head s4

/-- `LogManager::end_op` (`logger.rs:153-164`): decrement `outstanding`;
commit when it reaches zero. -/
def LogManager.end_op (s : LogSt) : LogSt :=
  let s1 := { s with outstanding := s.outstanding - 1 }
  if s1.outstanding = 0 then LogManager.commit s1 else s1

/-- `LogManager::log_write` (`logger.rs:128-141`): two asserts
(`table.len() < size`, `outstanding > 0`), then absorption — a block
number already in the table is a no-op, otherwise the pair is pushed. -/
def LogManager.log_write (s : LogSt) (blockno : Nat) (buf : BufC) : PanicOr LogSt :=
  if s.table.length < s.size then
    if 0 < s.outstanding then
      .ret (if s.table.any (fun p => p.1 == blockno) then s
            else { s with table := s.table ++ [(blockno, buf)] })
    else .panic
  else .panic

/-- `LogManager::new` (`logger.rs:90-126`), the mount-time recovery: read
the header at `start`; for each `i` in `0..n` push
`(blocks[i], Arc::clone(&block_cache))` — every entry pins the HEADER
buffer, not the home block's buffer — then `install_trans`, clear the
table, `write_head`.  Each `install_trans` iteration fully overwrites the
shared header buffer, so modeling the shared `Arc` per-entry by value
yields the same buffer and device contents; the final `write_head` reads
block `start`, which `install_trans` has just written through to disk.
(At runtime the source would in fact self-deadlock for `n >= 1`: the
header buffer's mutex guard is still held when `install_trans` locks the
same buffer again; the model follows the sequence of reads and writes.) -/
def LogManager.new (start size : Nat) (disk0 : Nat → Block) : LogSt :=
  let hdr := disk0 start
  let n := i32Loop (readU32 hdr 0)
  let s0 : LogSt :=
    { start := start, size := size, outstanding := 0, disk := disk0
      table := (List.range n).map (fun i => (readU32 hdr (4 + 4 * i), ⟨start, hdr⟩)) }
  let s1 := LogManager.install_trans s0
  let s2 := { s1 with table := [] }
  LogManager.write_head s2

/-- `LogManager::begin_op`'s wait condition (`logger.rs:146`): the source
loops while `table.len() + (outstanding + 1) * MAXOPBLOCKS >= LOGSIZE`. -/
def beginOpBlocked (tableLen outstanding : Nat) : Bool :=
  decide (LOGSIZE ≤ tableLen + (outstanding + 1) * MAXOPBLOCKS)

/-- `LogManager::begin_op` (`logger.rs:144-150`) against a fixed log
state: wait (`none`) while the condition holds, else increment
`outstanding`. -/
def LogManager.begin_op (tableLen outstanding : Nat) : Option Nat :=
  if beginOpBlocked tableLen outstanding then none else some (outstanding + 1)

/-! ### Concrete states for the log claims -/

/-- C1 scenario: header block 2 (all zero, `n = 0`), log data block 3
holding stale bytes `0x55`, home block 100 holding `0x00` on disk. -/
def c1disk : Nat → Block := fun b => if b = 3 then constBlock 85 else zeroBlock

/-- The one dirty buffer of the transaction: home block 100, bytes `0xAA`. -/
def c1buf : BufC := ⟨100, constBlock 170⟩

/-- Log state at the final `end_op`: one outstanding op, one table entry. -/
def c1s : LogSt := ⟨2, 30, 1, c1disk, [(100, c1buf)]⟩

/-- C2 scenario: committed on-disk header at block 2 (`n = 1`,
`blocks[0] = 100`). -/
def c2hdr : Block := fun i => if i = 0 then 1 else if i = 4 then 100 else 0

/-- Log data block 3: the bytes that recovery must install into home
block 100 (byte 8 is `0xAA`, the first four bytes are zero). -/
def c2log : Block := fun i => if i = 8 then 170 else 0

def c2disk : Nat → Block := fun b => if b = 2 then c2hdr else if b = 3 then c2log else zeroBlock

/-- C6 scenario: a buffer for home block 42 and an empty fresh log. -/
def c6buf : BufC := ⟨42, constBlock 187⟩

def c6s0 : LogSt := ⟨2, 30, 1, fun _ => zeroBlock, []⟩

/-- State after the first `log_write(42)`. -/
def c6s1 : LogSt :=
  match LogManager.log_write c6s0 42 c6buf with
  | .ret s => s
  | .panic => c6s0

/-- State after the second `log_write(42)` on the same transaction. -/
def c6s2 : LogSt :=
  match LogManager.log_write c6s1 42 c6buf with
  | .ret s => s
  | .panic => c6s0

/-! ## Bitmap allocator (`bitmap.rs`) and its block-layer state

For the allocator and the inode layer the relevant state is the content of
the live buffers (`mem`, one `Block` per block number — the cache serves
the unique live buffer, so buffer bytes and cache content coincide), the
log table keys in order (`table`, from `LogManager::log_write`), and the
log fields its asserts read.  `freed` is ghost instrumentation: the block
numbers passed to `bfree`, in call order. -/

structure MemSt where
  mem : Nat → Block
  table : List Nat
  outstanding : Nat
  size : Nat
  freed : List Nat

/-- Replace the whole content of block `b`. -/
def updBlock (m : Nat → Block) (b : Nat) (blk : Block) : Nat → Block :=
  fun x => if x = b then blk else m x

/-- Store byte `v` at offset `i` of block `b`. -/
def updByte (m : Nat → Block) (b i v : Nat) : Nat → Block :=
  fun x => if x = b then (fun j => if j = i then v else m b j) else m x

/-- Store a little-endian u32 at offset `off` of block `b`. -/
def updU32 (m : Nat → Block) (b off v : Nat) : Nat → Block :=
  fun x => if x = b then writeU32 (m b) off v else m x

/-- The table update of `LogManager::log_write` (`logger.rs:135-140`):
absorption — a present key is a no-op, otherwise push. -/
def pushAbsent (t : List Nat) (b : Nat) : List Nat :=
  if t.contains b then t else t ++ [b]

/-- `LogManager::log_write` as called through the allocator and inode
paths, keyed form: the two asserts (`table.len() < size`,
`outstanding > 0`), then absorption. -/
def logWriteK (st : MemSt) (b : Nat) : PanicOr MemSt :=
  if st.table.length < st.size then
    if 0 < st.outstanding then .ret { st with table := pushAbsent st.table b }
    else .panic
  else .panic

/-- `BitMap` (`bitmap.rs:9-13`): start block of the bitmap region and the
number of blocks it covers (the device, per the field comment). -/
structure BitMap where
  start : Nat
  blocks : Nat

/-- The found-branch of the `BitMap::alloc` scan (`bitmap.rs:44-59`), for
the clear bit `bno`, with `bi = bno / BPB`, `byte = (bno % BPB) / 8`,
`mask = 1 << (bno % BPB % 8)`: set the bit (`cache[byte] |= mask`),
`log_write` the bitmap block `start + bi`, zero block `bno`'s buffer,
`log_write` it, return `Some(bno)`. -/
def allocFound (bm : BitMap) (st : MemSt) (bno : Nat) : PanicOr (Option (MemSt × Nat)) :=
  match logWriteK { st with mem := updByte st.mem (bm.start + bno / BPB) (bno % BPB / 8) (st.mem (bm.start + bno / BPB) (bno % BPB / 8) ||| 2 ^ (bno % BPB % 8)) } (bm.start + bno / BPB) with
  | .panic => .panic
  | .ret st2 =>
    match logWriteK { st2 with mem := updBlock st2.mem bno zeroBlock } bno with
    | .panic => .panic
    | .ret st4 => .ret (some (st4, bno))

/-- The scan loop of `BitMap::alloc` (`bitmap.rs:32-61`): `for bno in
0..blocks`, testing `cache[byte] & mask == 0` on bitmap block
`start + bno / BPB`.  Recursion is on the remaining count `fuel` with
`bno` the current index. -/
def allocFrom (bm : BitMap) (st : MemSt) : Nat → Nat → PanicOr (Option (MemSt × Nat))
  | _, 0 => .ret none
  | bno, fuel + 1 =>
    if st.mem (bm.start + bno / BPB) (bno % BPB / 8) &&& 2 ^ (bno % BPB % 8) = 0 then
      allocFound bm st bno
    else allocFrom bm st (bno + 1) fuel

/-- `BitMap::alloc` (`bitmap.rs:27-63`). -/
def BitMap.alloc (bm : BitMap) (st : MemSt) : PanicOr (Option (MemSt × Nat)) :=
  allocFrom bm st 0 bm.blocks

/-- The bit test `cache[byte] & mask == 0` of the alloc scan, as a
predicate on the pre-state: bit `K` of the bitmap is free. -/
def allocBitFree (bm : BitMap) (st : MemSt) (K : Nat) : Bool :=
  st.mem (bm.start + K / BPB) (K % BPB / 8) &&& 2 ^ (K % BPB % 8) == 0

/-- The state change of a successful `BitMap::alloc` returning `K`: set
bit `K` in its bitmap block, log that block, zero block `K`, log it. -/
def allocEffect (bm : BitMap) (st : MemSt) (K : Nat) : MemSt :=
  let bb := bm.start + K / BPB
  let byte := K % BPB / 8
  let mask := 2 ^ (K % BPB % 8)
  let st1 := { st with mem := updByte st.mem bb byte (st.mem bb byte ||| mask) }
  let st2 := { st1 with table := pushAbsent st1.table bb }
  let st3 := { st2 with mem := updBlock st2.mem K zeroBlock }
  { st3 with table := pushAbsent st3.table K }

/-- `BitMap::dealloc` (`bitmap.rs:67-90`).  Note the addressing: the block
fetched and logged is `start + bno` and the byte is `bno / 8` — unlike
`alloc`, which uses block `start + bno / BPB` and byte `(bno % BPB) / 8`.
`assert!(cache[byte] & mask != 0)` fails (panics) on a clear bit;
otherwise the bit is cleared (`&= !mask` on a u8) and the fetched block is
`log_write`-ten. -/
def BitMap.dealloc (bm : BitMap) (st : MemSt) (bno : Nat) : PanicOr MemSt :=
  let blkno := bm.start + bno
  let byte := bno / 8
  let mask := 2 ^ (bno % 8)
  if st.mem blkno byte &&& mask = 0 then .panic
  else
    logWriteK
      { st with mem := updByte st.mem blkno byte (st.mem blkno byte &&& (255 ^^^ mask)) }
      blkno

/-! ## Inode layer (`vfs.rs`, `disk.rs`) -/

/-- `DiskInode` (`disk.rs:48-61`): kind, major, minor, nlink (i16 fields,
kept as `Int`), size (u32) and `bnos : [u32; NDIRECT + 1]` — thirteen
block addresses, indices `0..NDIRECT`. -/
structure DiskInode where
  kind : Int
  major : Int
  minor : Int
  nlink : Int
  size : Nat
  bnos : Nat → Nat

/-- Point update of an address array. -/
def updF (f : Nat → Nat) (i v : Nat) : Nat → Nat :=
  fun j => if j = i then v else f j

/-- `bfree` (`vfs.rs:160-168`): forwards to `BitMap::dealloc`.  The ghost
`freed` field records the call. -/
def bfree (bm : BitMap) (st : MemSt) (bno : Nat) : PanicOr MemSt :=
  match BitMap.dealloc bm st bno with
  | .panic => .panic
  | .ret st1 => .ret { st1 with freed := st1.freed ++ [bno] }

/-- `bzero` (`vfs.rs:189-202`): zero the block's buffer and register it
with the log.  (The source calls `log_mgr.write`, a method `LogManager`
does not define; the only registration operation is `log_write`, which
the surrounding comment `记录在案` also describes, so it is modeled as
`log_write`.) -/
def bzero (st : MemSt) (bno : Nat) : PanicOr MemSt :=
  logWriteK { st with mem := updBlock st.mem bno zeroBlock } bno

/-- `balloc` (`vfs.rs:175-185`): `BitMap::alloc`, then `bzero` on the
returned block; a `None` from alloc propagates (`?`). -/
def balloc (bm : BitMap) (st : MemSt) : PanicOr (Option (MemSt × Nat)) :=
  match BitMap.alloc bm st with
  | .panic => .panic
  | .ret none => .ret none
  | .ret (some (st1, bno)) =>
    match bzero st1 bno with
    | .panic => .panic
    | .ret st2 => .ret (some (st2, bno))

/-- Outcome of `Inode::bmap`: `ok` is `Some(bno)` with the updated inode
and state, `nofree` is the `None` a failed `balloc` propagates through
`?`, `outOfRange` is `panic!("bmap: out of range")`, `panicked` is an
assertion failure inside `log_write` or `dealloc`. -/
inductive BmapRes where
  | ok (d : DiskInode) (st : MemSt) (bno : Nat)
  | nofree (d : DiskInode) (st : MemSt)
  | outOfRange
  | panicked

/-- The indirect-slot half of `Inode::bmap` (`vfs.rs:132-148`), entered
with `bnos[NDIRECT]` nonzero: read the indirect block as
`[u32; NINDIRECT]`, consult slot `L`; a zero slot is filled from `balloc`
and the indirect block is registered with the log. -/
def bmapIndirect (bm : BitMap) (d : DiskInode) (st : MemSt) (L : Nat) : BmapRes :=
  let ind := d.bnos NDIRECT
  let slot := readU32 (st.mem ind) (4 * L)
  if slot = 0 then
    match balloc bm st with
    | .panic => .panicked
    | .ret none => .nofree d st
    | .ret (some (st1, k)) =>
      let st2 := { st1 with mem := updU32 st1.mem ind (4 * L) k }
      match logWriteK st2 ind with
      | .panic => .panicked
      | .ret st3 => .ok d st3 k
  else .ok d st slot

/-- The part of `Inode::bmap` after `let bno_logi = bno_logi - NDIRECT`
(`vfs.rs:124-151`), with `L` the already-subtracted index. -/
def bmapTail (bm : BitMap) (d : DiskInode) (st : MemSt) (L : Nat) : BmapRes :=
  if L < NINDIRECT then
    if d.bnos NDIRECT = 0 then
      match balloc bm st with
      | .panic => .panicked
      | .ret none => .nofree d st
      | .ret (some (st1, k)) => bmapIndirect bm { d with bnos := updF d.bnos NDIRECT k } st1 L
    else bmapIndirect bm d st L
  else .outOfRange

/-- `Inode::bmap` (`vfs.rs:108-152`).  For `L < NDIRECT` with a zero
slot, `balloc`, store and return.  For `L < NDIRECT` with a NONZERO slot
the source has no `return`: control falls through to
`let bno_logi = bno_logi - NDIRECT`, a usize subtraction that underflows —
a panic in a debug build; in release it wraps modulo `2 ^ 64` (modeled
here), fails `bno_logi < NINDIRECT`, and reaches
`panic!("bmap: out of range")`. -/
def Inode.bmap (bm : BitMap) (d : DiskInode) (st : MemSt) (L : Nat) : BmapRes :=
  if L < NDIRECT then
    if d.bnos L = 0 then
      match balloc bm st with
      | .panic => .panicked
      | .ret none => .nofree d st
      | .ret (some (st1, k)) => .ok { d with bnos := updF d.bnos L k } st1 k
    else bmapTail bm d st ((L + 2 ^ 64 - NDIRECT) % 2 ^ 64)
  else bmapTail bm d st (L - NDIRECT)

/-- Byte encoding of a `[u32; NINDIRECT]` view of a block, little-endian,
entry `k` at offset `4 * k`; used to write the mutated view back. -/
def encodeArr (arr : Nat → Nat) : Block :=
  fun off => arr (off / 4) / 256 ^ (off % 4) % 256

/-- The direct loop of `Inode::itrunc` (`vfs.rs:60-70`): for each index
`i` of the list (`for i in 0..NDIRECT`), a nonzero `bnos[i]` is passed to
`bfree` and then set to 0. -/
def itruncDirect (bm : BitMap) : List Nat → DiskInode → MemSt → PanicOr (DiskInode × MemSt)
  | [], d, st => .ret (d, st)
  | i :: rest, d, st =>
    if d.bnos i ≠ 0 then
      match bfree bm st (d.bnos i) with
      | .panic => .panic
      | .ret st1 => itruncDirect bm rest { d with bnos := updF d.bnos i 0 } st1
    else itruncDirect bm rest d st

/-- The indirect loop of `Inode::itrunc` (`vfs.rs:77-89`): iterate the
`[u32; NINDIRECT]` view of the indirect block (`arr`); each nonzero entry
is passed to `bfree` and zeroed in the view.  The view is held under the
indirect buffer's exclusive lock for the whole loop, so no other access
interleaves; the mutated view is written back when the loop ends. -/
def itruncIndirect (bm : BitMap) : List Nat → (Nat → Nat) → MemSt → PanicOr ((Nat → Nat) × MemSt)
  | [], arr, st => .ret (arr, st)
  | j :: rest, arr, st =>
    if arr j ≠ 0 then
      match bfree bm st (arr j) with
      | .panic => .panic
      | .ret st1 => itruncIndirect bm rest (updF arr j 0) st1
    else itruncIndirect bm rest arr st

/-- `Inode::itrunc` (`vfs.rs:54-98`): free the nonzero direct slots; if
`bnos[NDIRECT]` is nonzero, read the indirect block via the cache, free
and zero its nonzero entries, `bfree` the indirect block itself, and zero
`bnos[NDIRECT]`.  The inode's `size` field is never touched. -/
def Inode.itrunc (bm : BitMap) (d : DiskInode) (st : MemSt) : PanicOr (DiskInode × MemSt) :=
  match itruncDirect bm (List.range NDIRECT) d st with
  | .panic => .panic
  | .ret (d1, st1) =>
    if d1.bnos NDIRECT ≠ 0 then
      match itruncIndirect bm (List.range NINDIRECT)
          (fun j => readU32 (st1.mem (d1.bnos NDIRECT)) (4 * j)) st1 with
      | .panic => .panic
      | .ret (arr1, st2) =>
        match bfree bm { st2 with mem := updBlock st2.mem (d1.bnos NDIRECT) (encodeArr arr1) }
            (d1.bnos NDIRECT) with
        | .panic => .panic
        | .ret st4 => .ret ({ d1 with bnos := updF d1.bnos NDIRECT 0 }, st4)
    else .ret (d1, st1)

/-! ## On-disk inode layout (`inode.rs:41-57`, `common.rs:20-21`) -/

/-- Length of `DInode.addrs` in `inode.rs:56`: `[u32; NDIRECT + 1 + 1]`. -/
def dinodeAddrsLen : Nat := NDIRECT + 1 + 1

/-- `size_of::<DInode>()` for `inode.rs`'s `repr(C)` `DInode`: four i16
fields at offsets 0, 2, 4, 6, the u32 `size` at 8, `addrs` at 12; all
offsets naturally aligned, alignment 4, no padding. -/
def sizeOfDInode : Nat := 2 + 2 + 2 + 2 + 4 + 4 * dinodeAddrsLen

/-- `IPB = BSIZE / size_of::<DInode>()` (`common.rs:21`). -/
def IPB : Nat := BSIZE / sizeOfDInode

/-- Byte offset of inode `inum`'s slot inside its inode block:
`(inum % IPB) * size_of::<DInode>()` (`inode.rs:121`, `inode.rs:145`). -/
def inodeSlotOffset (inum : Nat) : Nat := inum % IPB * sizeOfDInode

/-- Byte offset of `addrs` inside a `DInode`. -/
def dinodeAddrsOffset : Nat := 2 + 2 + 2 + 2 + 4

/-- Bytes zeroed by `ialloc`'s `ptr::write_bytes(dip_ptr, 0,
size_of::<DInode>())` (`inode.rs:125`): the count argument is in units of
the pointee `DInode`, so `size_of::<DInode>()` DInode-sized elements. -/
def iallocZeroBytes : Nat := sizeOfDInode * sizeOfDInode

/-- Bytes copied by `iupdate`'s `ptr::copy(addrs_src, addrs_dst,
size_of::<[u32; NDIRECT + 1 + 1]>())` (`inode.rs:152-157`): the count is
in units of the pointee `u32`, so `4 * dinodeAddrsLen` u32 elements. -/
def iupdateCopyBytes : Nat := 4 * dinodeAddrsLen * 4

/-! ### Concrete states for the allocator and bmap claims -/

/-- C5 scenario: bitmap at block 3 covering 16 blocks; bit 0 already
taken (a metadata block), everything else free. -/
def bm5 : BitMap := ⟨3, 16⟩

def c5mem : Nat → Block := fun b => if b = 3 then (fun i => if i = 0 then 1 else 0) else zeroBlock

def st5 : MemSt := ⟨c5mem, [], 1, 30, []⟩

/-- The block number `balloc` returns on `st5`. -/
def c5k : Nat :=
  match balloc bm5 st5 with
  | .ret (some (_, k)) => k
  | _ => 0

/-- The state after that `balloc`. -/
def c5st1 : MemSt :=
  match balloc bm5 st5 with
  | .ret (some (st, _)) => st
  | _ => st5

/-- `c5st1` with byte 0 of block 4 (= `start + K`, the block `dealloc`
wrongly addresses) set to `0b10`, so the misdirected assert passes. -/
def c5st2 : MemSt := { c5st1 with mem := updByte c5st1.mem 4 0 2 }

/-- Result of `bfree(1)` from `c5st2`. -/
def c5st3 : MemSt :=
  match bfree bm5 c5st2 1 with
  | .ret st => st
  | .panic => c5st2

/-- C4 scenario: an inode whose direct slot 0 already holds block 7. -/
def d4 : DiskInode := ⟨2, 0, 0, 1, 0, fun j => if j = 0 then 7 else 0⟩

def st4 : MemSt := ⟨fun _ => zeroBlock, [], 1, 30, []⟩

def bm4 : BitMap := ⟨3, 16⟩

/-- C7 witness scenario: bitmap at block 3 over 4 blocks, bit 0 taken. -/
def bm7 : BitMap := ⟨3, 4⟩

def c7mem : Nat → Block := fun b => if b = 3 then (fun i => if i = 0 then 1 else 0) else zeroBlock

def st7 : MemSt := ⟨c7mem, [], 1, 30, []⟩

/-- The state a successful `alloc` on `st7` returns. -/
def c7st : MemSt :=
  match BitMap.alloc bm7 st7 with
  | .ret (some (st, _)) => st
  | _ => st7

/-- The block number that `alloc` on `st7` returns. -/
def c7K : Nat :=
  match BitMap.alloc bm7 st7 with
  | .ret (some (_, k)) => k
  | _ => 0

/-- C8 scenario: an inode with no blocks at all but a nonzero size. -/
def bm8 : BitMap := ⟨3, 16⟩

def d8 : DiskInode := ⟨2, 0, 0, 1, 7, fun _ => 0⟩

def st8 : MemSt := ⟨fun _ => zeroBlock, [], 1, 30, []⟩

/-! ## Theorems for the log claims -/

/-- C1: the claim says commit first copies each dirty buffer's bytes into
its log data block, only then writes the header (`n = table.len()`,
`blocks[i] = h`) as the commit point, then installs the home blocks, and
that no home block is written before the header commit-point write.  The
code does the opposite: already during `write_log` (the first commit
step) home block 100 receives the stale log block's bytes `0x55` while
the on-disk header still reads `n = 0`; after the whole `end_op` commit
the home block holds `0x55` — the transaction's bytes `0xAA` are lost —
and the header's `n` was never set to `table.len() = 1`. -/
theorem commit_writes_home_before_commit_point :
    (LogManager.write_log c1s).disk 100 0 = 85
    ∧ readU32 ((LogManager.write_log c1s).disk 2) 0 = 0
    ∧ (LogManager.end_op c1s).disk 100 0 = 85
    ∧ readU32 ((LogManager.end_op c1s).disk 2) 0 = 0 := by
  refine ⟨rfl, rfl, rfl, rfl⟩

/-- C2: the claim says mount-time recovery copies each log data block
`start + 1 + i` into the home block `blocks[i]` and then clears the
header.  In `LogManager::new` every replay table entry pins the HEADER
buffer, so `install_trans` writes the log data bytes to block `start`
(the header block) instead: home block 100 keeps byte 0 at offset 8
while the header block 2 receives the log block's byte `0xAA` there. -/
theorem recovery_installs_into_header_not_home :
    (LogManager.new 2 30 c2disk).disk 100 8 = 0
    ∧ (LogManager.new 2 30 c2disk).disk 2 8 = 170 := by
  refine ⟨rfl, rfl⟩

/-- C3 counterexample: with an empty table and two outstanding operations
the admission sum is `0 + 3 * MAXOPBLOCKS = 30 = LOGSIZE`, which is NOT
greater than `LOGSIZE`, yet `begin_op` blocks — the source compares with
`>=`, not `>`. -/
theorem begin_op_blocks_at_exact_logsize :
    ¬ (LOGSIZE < 0 + (2 + 1) * MAXOPBLOCKS) ∧ LogManager.begin_op 0 2 = none := by
  exact ⟨by decide, by decide⟩

/-- C3 amended: `begin_op` blocks exactly while
`table.len() + (outstanding + 1) * MAXOPBLOCKS >= LOGSIZE` and proceeds,
incrementing `outstanding`, exactly when the sum is strictly below
`LOGSIZE`; in particular a third concurrent operation is refused. -/
theorem begin_op_admission (t o : Nat) :
    (LogManager.begin_op t o = some (o + 1) ↔ t + (o + 1) * MAXOPBLOCKS < LOGSIZE)
    ∧ (LogManager.begin_op t o = none ↔ LOGSIZE ≤ t + (o + 1) * MAXOPBLOCKS) := by
  unfold LogManager.begin_op beginOpBlocked
  by_cases h : LOGSIZE ≤ t + (o + 1) * MAXOPBLOCKS
  · rw [if_pos (by simpa using h)]
    refine ⟨⟨fun hx => absurd hx (by simp), fun hx => absurd h (by omega)⟩,
      ⟨fun _ => h, fun _ => rfl⟩⟩
  · rw [if_neg (by simpa using h)]
    refine ⟨⟨fun _ => by omega, fun _ => rfl⟩,
      ⟨fun hx => absurd hx (by simp), fun hx => absurd hx h⟩⟩

/-- C6: absorption itself holds — the second `log_write(42)` in the same
transaction returns the table unchanged, with exactly one entry, for
block 42 — but the committed header does not record the transaction:
after `end_op` the on-disk header still has `n = 0`, not `n = 1` with
`blocks[0] = 42`, because `write_head` never stores `table.len()` into
`n`. -/
theorem log_write_absorbs_but_header_stays_empty :
    c6s2 = c6s1
    ∧ c6s1.table.map Prod.fst = [42]
    ∧ readU32 ((LogManager.end_op c6s2).disk 2) 0 = 0 := by
  refine ⟨rfl, rfl, rfl⟩

/-- C4: the claim says that for `L < NDIRECT` with `addrs[L]` nonzero,
`bmap` returns `addrs[L]` without allocating, and that `bmap` is fatal
only for `L >= MAXFILE`.  On the code the nonzero-direct branch has no
`return`: at `L = 0` with `addrs[0] = 7` control falls through to the
underflowing `bno_logi - NDIRECT` and `bmap` is fatal (subtract-overflow
panic in debug; `bmap: out of range` after wrap in release) although
`L = 0 < MAXFILE`. -/
theorem bmap_direct_hit_is_fatal :
    d4.bnos 0 = 7 ∧ ¬ MAXFILE ≤ 0 ∧ Inode.bmap bm4 d4 st4 0 = .outOfRange := by
  refine ⟨rfl, by decide, rfl⟩

/-- C5: the claim says that after `balloc` returns `K`, `bfree(K)` in the
same transaction clears exactly bit `K % 8` of byte `K / 8` of the bitmap
block covering `K`, which `dealloc` asserts was set and logs.  On the
code `balloc` returns `K = 1` (bit 0 taken), but `bfree(1)` panics: the
`dealloc` assert inspects byte `1 / 8 = 0` of block `start + 1 = 4` — a
data block — instead of the bitmap block `start + 1 / BPB = 3`.  And when
that misdirected bit happens to be set (`c5st2`), `dealloc` clears it in
block 4 and logs block 4, while the actual bitmap bit for `K = 1` in
block 3 stays set (byte value 3). -/
theorem bfree_after_balloc_misaddresses_bitmap :
    c5k = 1
    ∧ bfree bm5 c5st1 1 = .panic
    ∧ c5st3.mem 3 0 = 3
    ∧ c5st3.mem 4 0 = 0
    ∧ c5st3.table = [3, 1, 4] := by
  refine ⟨rfl, rfl, rfl, rfl, rfl⟩

/-- C9 counterexample: `inode.rs`'s `DInode` is not 64 bytes with
`NDIRECT + 1` address slots and 16 inodes per block. -/
theorem dinode_not_64_bytes :
    ¬ (sizeOfDInode = 64 ∧ dinodeAddrsLen = NDIRECT + 1 ∧ IPB = 16) := by
  decide

/-- C9 amended: `DInode` occupies 68 bytes — i16 kind, major, minor,
nlink, u32 size, and an `addrs` array of `NDIRECT + 2 = 14` u32 entries —
so `IPB = BSIZE / size_of::<DInode>() = 15` inodes per block. -/
theorem dinode_layout_68_bytes :
    sizeOfDInode = 68 ∧ dinodeAddrsLen = NDIRECT + 2 ∧ IPB = 15 := by
  decide

/-- C10: the claim says `ialloc` zeroes exactly `size_of::<DInode>()`
bytes of the chosen slot, `iupdate` copies exactly the `addrs` array's
length, and both stay inside the `BSIZE`-byte buffer.  The counts passed
to `ptr::write_bytes` / `ptr::copy` are in elements of the pointee, so
`ialloc` writes `68 * 68 = 4624` bytes (slot offset 68 for
`inum % IPB = 1` already overruns: `68 + 4624 > 1024`) and `iupdate`
copies `56 * 4 = 224` bytes (slot `inum % IPB = 12`:
`816 + 12 + 224 > 1024`). -/
theorem ialloc_iupdate_counts_overrun :
    iallocZeroBytes = 4624
    ∧ iallocZeroBytes ≠ sizeOfDInode
    ∧ BSIZE < inodeSlotOffset 1 + iallocZeroBytes
    ∧ iupdateCopyBytes = 224
    ∧ iupdateCopyBytes ≠ 4 * dinodeAddrsLen
    ∧ BSIZE < inodeSlotOffset 12 + dinodeAddrsOffset + iupdateCopyBytes := by
  decide

/-! ### Helper lemmas for the allocator scan -/

/-- `log_write` either fails an assert or pushes the key (absorbing). -/
theorem logWriteK_ret (st : MemSt) (b : Nat) (st1 : MemSt)
    (h : logWriteK st b = .ret st1) :
    st1 = { st with table := pushAbsent st.table b } := by
  unfold logWriteK at h
  split at h
  · split at h
    · injection h with h2
      exact h2.symm
    · exact PanicOr.noConfusion h
  · exact PanicOr.noConfusion h

/-- The found-branch of the scan either hits a `log_write` assert or
returns `Some(bno)` with exactly the `allocEffect` state change. -/
theorem allocFound_cases (bm : BitMap) (st : MemSt) (bno : Nat) :
    allocFound bm st bno = .panic
    ∨ allocFound bm st bno = .ret (some (allocEffect bm st bno, bno)) := by
  unfold allocFound
  split
  · exact Or.inl rfl
  next st2 heq1 =>
    split
    · exact Or.inl rfl
    next st4 heq2 =>
      right
      rw [logWriteK_ret _ _ _ heq2, logWriteK_ret _ _ _ heq1]
      exact rfl

/-- The scan returns `none` exactly when every bit in the remaining range
`[bno, bno + fuel)` is taken. -/
theorem allocFrom_none_iff (bm : BitMap) (st : MemSt) :
    ∀ fuel bno : Nat,
      (allocFrom bm st bno fuel = .ret none ↔
        ∀ j, bno ≤ j → j < bno + fuel → allocBitFree bm st j = false) := by
  intro fuel
  induction fuel with
  | zero =>
    intro bno
    constructor
    · intro _ j hj1 hj2
      omega
    · intro _
      rfl
  | succ n ih =>
    intro bno
    constructor
    · intro h j hj1 hj2
      rw [allocFrom] at h
      by_cases hc : st.mem (bm.start + bno / BPB) (bno % BPB / 8) &&& 2 ^ (bno % BPB % 8) = 0
      · rw [if_pos hc] at h
        rcases allocFound_cases bm st bno with hf | hf
        · rw [hf] at h
          exact PanicOr.noConfusion h
        · rw [hf] at h
          injection h with h2
          exact Option.noConfusion h2
      · rw [if_neg hc] at h
        rcases Nat.eq_or_lt_of_le hj1 with he | hlt
        · subst he
          exact beq_eq_false_iff_ne.mpr hc
        · exact (ih (bno + 1)).mp h j hlt (by omega)
    · intro hall
      rw [allocFrom]
      have hc : ¬ st.mem (bm.start + bno / BPB) (bno % BPB / 8) &&& 2 ^ (bno % BPB % 8) = 0 := by
        have hb := hall bno (Nat.le_refl bno) (by omega)
        exact beq_eq_false_iff_ne.mp hb
      rw [if_neg hc]
      exact (ih (bno + 1)).mpr (fun j hj1 hj2 => hall j (by omega) (by omega))

/-- A scan that returns `Some(K)` found the first free bit at or after
`bno`, and its state change is `allocEffect`. -/
theorem allocFrom_some_spec (bm : BitMap) (st : MemSt) :
    ∀ (fuel bno : Nat) (st4 : MemSt) (K : Nat),
      allocFrom bm st bno fuel = .ret (some (st4, K)) →
      bno ≤ K ∧ K < bno + fuel ∧ allocBitFree bm st K = true
      ∧ (∀ j, bno ≤ j → j < K → allocBitFree bm st j = false)
      ∧ st4 = allocEffect bm st K := by
  intro fuel
  induction fuel with
  | zero =>
    intro bno st4 K h
    rw [allocFrom] at h
    injection h with h2
    exact Option.noConfusion h2
  | succ n ih =>
    intro bno st4 K h
    rw [allocFrom] at h
    by_cases hc : st.mem (bm.start + bno / BPB) (bno % BPB / 8) &&& 2 ^ (bno % BPB % 8) = 0
    · rw [if_pos hc] at h
      rcases allocFound_cases bm st bno with hf | hf
      · rw [hf] at h
        exact PanicOr.noConfusion h
      · rw [hf] at h
        injection h with h2
        injection h2 with h3
        injection h3 with h4 h5
        subst h5
        refine ⟨Nat.le_refl _, by omega, beq_iff_eq.mpr hc, ?_, h4.symm⟩
        intro j hj1 hj2
        omega
    · rw [if_neg hc] at h
      have H := ih (bno + 1) st4 K h
      refine ⟨by have := H.1; omega, by have := H.2.1; omega, H.2.2.1, ?_, H.2.2.2.2⟩
      intro j hj1 hj2
      rcases Nat.eq_or_lt_of_le hj1 with he | hlt
      · subst he
        exact beq_eq_false_iff_ne.mpr hc
      · exact H.2.2.2.1 j hlt hj2

/-- C7: `BitMap::alloc` is first-fit: a successful scan returns the
lowest block number `K` whose bitmap bit is clear, after setting that
bit, logging the bitmap block, zeroing all `BSIZE` bytes of block `K` and
logging it (`allocEffect`); it returns `None` exactly when every bit in
the scanned range `0..blocks` is taken. -/
theorem alloc_first_fit (bm : BitMap) (st : MemSt) :
    (∀ (st4 : MemSt) (K : Nat), BitMap.alloc bm st = .ret (some (st4, K)) →
        K < bm.blocks ∧ allocBitFree bm st K = true
        ∧ (∀ j, j < K → allocBitFree bm st j = false)
        ∧ st4 = allocEffect bm st K)
    ∧ (BitMap.alloc bm st = .ret none ↔ ∀ K, K < bm.blocks → allocBitFree bm st K = false) := by
  constructor
  · intro st4 K h
    have H := allocFrom_some_spec bm st bm.blocks 0 st4 K h
    refine ⟨by have := H.2.1; omega, H.2.2.1, ?_, H.2.2.2.2⟩
    intro j hj
    exact H.2.2.2.1 j (Nat.zero_le j) hj
  · constructor
    · intro h K hK
      exact (allocFrom_none_iff bm st bm.blocks 0).mp h K (Nat.zero_le K) (by omega)
    · intro hall
      exact (allocFrom_none_iff bm st bm.blocks 0).mpr (fun j _ hj => hall j (by omega))

/-- C7 witness: on `st7` (bit 0 taken, bit 1 free) `alloc` returns block
1, the lowest free bit; instantiates `alloc_first_fit` concretely. -/
theorem alloc_first_fit_witness :
    BitMap.alloc bm7 st7 = .ret (some (c7st, c7K))
    ∧ c7K < bm7.blocks
    ∧ allocBitFree bm7 st7 c7K = true
    ∧ allocBitFree bm7 st7 0 = false := by
  have h : BitMap.alloc bm7 st7 = .ret (some (c7st, c7K)) := rfl
  have H := (alloc_first_fit bm7 st7).1 c7st c7K h
  exact ⟨h, H.1, H.2.1, H.2.2.1 0 (by decide)⟩

/-! ### Helper lemmas for truncate -/

/-- `dealloc` leaves the ghost `freed` trace unchanged. -/
theorem dealloc_freed (bm : BitMap) (st : MemSt) (bno : Nat) (st1 : MemSt)
    (h : BitMap.dealloc bm st bno = .ret st1) : st1.freed = st.freed := by
  simp only [BitMap.dealloc] at h
  split at h
  · exact PanicOr.noConfusion h
  · rw [logWriteK_ret _ _ _ h]

/-- A returning `bfree` appends exactly its argument to the trace. -/
theorem bfree_ret (bm : BitMap) (st : MemSt) (bno : Nat) (st1 : MemSt)
    (h : bfree bm st bno = .ret st1) : st1.freed = st.freed ++ [bno] := by
  unfold bfree at h
  split at h
  · exact PanicOr.noConfusion h
  next st2 heq =>
    injection h with h2
    rw [← h2]
    show st2.freed ++ [bno] = st.freed ++ [bno]
    rw [dealloc_freed bm st bno st2 heq]

/-- The direct loop of `itrunc` over a duplicate-free index list: when it
returns, the processed slots are zero, untouched slots keep their values,
`size` is unchanged, every nonzero processed slot value was passed to
`bfree`, and the trace only grows. -/
theorem itruncDirect_spec (bm : BitMap) :
    ∀ (l : List Nat) (d : DiskInode) (st : MemSt) (d1 : DiskInode) (st1 : MemSt),
      l.Nodup →
      itruncDirect bm l d st = .ret (d1, st1) →
      (∀ i ∈ l, d1.bnos i = 0)
      ∧ (∀ i, i ∉ l → d1.bnos i = d.bnos i)
      ∧ d1.size = d.size
      ∧ (∀ i ∈ l, d.bnos i ≠ 0 → d.bnos i ∈ st1.freed)
      ∧ (∀ x ∈ st.freed, x ∈ st1.freed) := by
  intro l
  induction l with
  | nil =>
    intro d st d1 st1 _ h
    rw [itruncDirect] at h
    injection h with h2
    injection h2 with h3 h4
    subst h3
    subst h4
    exact ⟨fun i hi => absurd hi (List.not_mem_nil i), fun i _ => rfl, rfl,
      fun i hi => absurd hi (List.not_mem_nil i), fun x hx => hx⟩
  | cons i rest ih =>
    intro d st d1 st1 hnd h
    rw [List.nodup_cons] at hnd
    obtain ⟨hni, hndr⟩ := hnd
    rw [itruncDirect] at h
    by_cases hz : d.bnos i ≠ 0
    · rw [if_pos hz] at h
      split at h
      · exact PanicOr.noConfusion h
      next st2 heq =>
        have IH := ih { d with bnos := updF d.bnos i 0 } st2 d1 st1 hndr h
        have hfr : st2.freed = st.freed ++ [d.bnos i] := bfree_ret _ _ _ _ heq
        refine ⟨?_, ?_, IH.2.2.1, ?_, ?_⟩
        · intro k hk
          rcases List.mem_cons.mp hk with hk | hk
          · subst hk
            rw [IH.2.1 k hni]
            simp [updF]
          · exact IH.1 k hk
        · intro k hk
          have hk1 : k ≠ i := fun he => hk (he ▸ List.mem_cons_self i rest)
          have hk2 : k ∉ rest := fun hm => hk (List.mem_cons_of_mem i hm)
          rw [IH.2.1 k hk2]
          simp [updF, hk1]
        · intro k hk hkz
          rcases List.mem_cons.mp hk with hk | hk
          · subst hk
            have hmem : d.bnos k ∈ st2.freed := by
              rw [hfr]
              exact List.mem_append_right _ (List.mem_singleton_self _)
            exact IH.2.2.2.2 _ hmem
          · have hki : k ≠ i := fun he => hni (he ▸ hk)
            have hz2 : ({ d with bnos := updF d.bnos i 0 } : DiskInode).bnos k ≠ 0 := by
              simpa [updF, hki] using hkz
            have h2 := IH.2.2.2.1 k hk hz2
            simpa [updF, hki] using h2
        · intro x hx
          have hmem : x ∈ st2.freed := by
            rw [hfr]
            exact List.mem_append_left _ hx
          exact IH.2.2.2.2 x hmem
    · rw [if_neg hz] at h
      push_neg at hz
      have IH := ih d st d1 st1 hndr h
      refine ⟨?_, ?_, IH.2.2.1, ?_, IH.2.2.2.2⟩
      · intro k hk
        rcases List.mem_cons.mp hk with hk | hk
        · subst hk
          rw [IH.2.1 k hni]
          exact hz
        · exact IH.1 k hk
      · intro k hk
        exact IH.2.1 k (fun hm => hk (List.mem_cons_of_mem i hm))
      · intro k hk hkz
        rcases List.mem_cons.mp hk with hk | hk
        · subst hk
          exact absurd hz hkz
        · exact IH.2.2.2.1 k hk hkz

/-- The indirect loop of `itrunc`: every nonzero processed entry is
passed to `bfree`, and the trace only grows. -/
theorem itruncIndirect_spec (bm : BitMap) :
    ∀ (l : List Nat) (arr : Nat → Nat) (st : MemSt) (arr1 : Nat → Nat) (st1 : MemSt),
      l.Nodup →
      itruncIndirect bm l arr st = .ret (arr1, st1) →
      (∀ j ∈ l, arr j ≠ 0 → arr j ∈ st1.freed)
      ∧ (∀ x ∈ st.freed, x ∈ st1.freed) := by
  intro l
  induction l with
  | nil =>
    intro arr st arr1 st1 _ h
    rw [itruncIndirect] at h
    injection h with h2
    injection h2 with h3 h4
    subst h3
    subst h4
    exact ⟨fun j hj => absurd hj (List.not_mem_nil j), fun x hx => hx⟩
  | cons i rest ih =>
    intro arr st arr1 st1 hnd h
    rw [List.nodup_cons] at hnd
    obtain ⟨hni, hndr⟩ := hnd
    rw [itruncIndirect] at h
    by_cases hz : arr i ≠ 0
    · rw [if_pos hz] at h
      split at h
      · exact PanicOr.noConfusion h
      next st2 heq =>
        have IH := ih (updF arr i 0) st2 arr1 st1 hndr h
        have hfr : st2.freed = st.freed ++ [arr i] := bfree_ret _ _ _ _ heq
        refine ⟨?_, ?_⟩
        · intro k hk hkz
          rcases List.mem_cons.mp hk with hk | hk
          · subst hk
            have hmem : arr k ∈ st2.freed := by
              rw [hfr]
              exact List.mem_append_right _ (List.mem_singleton_self _)
            exact IH.2 _ hmem
          · have hki : k ≠ i := fun he => hni (he ▸ hk)
            have hz2 : updF arr i 0 k ≠ 0 := by
              simpa [updF, hki] using hkz
            have h2 := IH.1 k hk hz2
            simpa [updF, hki] using h2
        · intro x hx
          have hmem : x ∈ st2.freed := by
            rw [hfr]
            exact List.mem_append_left _ hx
          exact IH.2 x hmem
    · rw [if_neg hz] at h
      push_neg at hz
      have IH := ih arr st arr1 st1 hndr h
      refine ⟨?_, IH.2⟩
      intro k hk hkz
      rcases List.mem_cons.mp hk with hk | hk
      · subst hk
        exact absurd hz hkz
      · exact IH.1 k hk hkz

/-- C8 amended: when `itrunc` returns, every nonzero direct slot's block
was passed to `bfree` and every `addrs` entry is zero; if `addrs[NDIRECT]`
was nonzero, every nonzero entry of the indirect block (as read after the
direct phase) and the indirect block itself were passed to `bfree`.  The
inode's `size` field is left unchanged — the code does not set it to 0. -/
theorem itrunc_spec (bm : BitMap) (d : DiskInode) (st : MemSt) (d2 : DiskInode) (st2 : MemSt)
    (h : Inode.itrunc bm d st = .ret (d2, st2)) :
    (∀ i, i ≤ NDIRECT → d2.bnos i = 0)
    ∧ d2.size = d.size
    ∧ (∀ i, i < NDIRECT → d.bnos i ≠ 0 → d.bnos i ∈ st2.freed)
    ∧ (d.bnos NDIRECT ≠ 0 → d.bnos NDIRECT ∈ st2.freed)
    ∧ (d.bnos NDIRECT ≠ 0 →
        ∃ dm stm, itruncDirect bm (List.range NDIRECT) d st = .ret (dm, stm)
          ∧ ∀ j, j < NINDIRECT → readU32 (stm.mem (d.bnos NDIRECT)) (4 * j) ≠ 0 →
              readU32 (stm.mem (d.bnos NDIRECT)) (4 * j) ∈ st2.freed) := by
  unfold Inode.itrunc at h
  split at h
  · exact PanicOr.noConfusion h
  next d1 st1 heq1 =>
    have HD := itruncDirect_spec bm (List.range NDIRECT) d st d1 st1 (List.nodup_range NDIRECT) heq1
    have hND : d1.bnos NDIRECT = d.bnos NDIRECT := HD.2.1 NDIRECT (by simp [List.mem_range])
    by_cases hind : d1.bnos NDIRECT ≠ 0
    · rw [if_pos hind] at h
      split at h
      · exact PanicOr.noConfusion h
      next arr1 st1b heq2 =>
        split at h
        · exact PanicOr.noConfusion h
        next st4 heq3 =>
          injection h with h2
          injection h2 with h3 h4
          subst h3
          subst h4
          have HI := itruncIndirect_spec bm (List.range NINDIRECT)
            (fun j => readU32 (st1.mem (d1.bnos NDIRECT)) (4 * j)) st1 arr1 st1b
            (List.nodup_range NINDIRECT) heq2
          have hfr3 : st4.freed = st1b.freed ++ [d.bnos NDIRECT] := by
            have h5 := bfree_ret _ _ _ _ heq3
            rw [hND] at h5
            exact h5
          rw [hND] at HI
          refine ⟨?_, HD.2.2.1, ?_, ?_, ?_⟩
          · intro i hi
            by_cases hiN : i = NDIRECT
            · subst hiN
              simp [updF]
            · have hlt : i < NDIRECT := by omega
              have hz := HD.1 i (List.mem_range.mpr hlt)
              show updF d1.bnos NDIRECT 0 i = 0
              rw [updF, if_neg hiN]
              exact hz
          · intro i hlt hz
            have h1 := HD.2.2.2.1 i (List.mem_range.mpr hlt) hz
            have h2 := HI.2 _ h1
            rw [hfr3]
            exact List.mem_append_left _ h2
          · intro _
            rw [hfr3]
            exact List.mem_append_right _ (List.mem_singleton_self _)
          · intro _
            refine ⟨d1, st1, heq1, ?_⟩
            intro j hj hjz
            have h1 := HI.1 j (List.mem_range.mpr hj) hjz
            rw [hfr3]
            exact List.mem_append_left _ h1
    · rw [if_neg hind] at h
      push_neg at hind
      injection h with h2
      injection h2 with h3 h4
      subst h3
      subst h4
      have hdz : d.bnos NDIRECT = 0 := by
        rw [← hND]
        exact hind
      refine ⟨?_, HD.2.2.1, ?_, ?_, ?_⟩
      · intro i hi
        by_cases hiN : i = NDIRECT
        · subst hiN
          exact hind
        · exact HD.1 i (List.mem_range.mpr (by omega))
      · intro i hlt hz
        exact HD.2.2.2.1 i (List.mem_range.mpr hlt) hz
      · intro hc
        exact absurd hdz hc
      · intro hc
        exact absurd hdz hc

/-- C8 counterexample: on an inode with no blocks and `size = 7`,
`itrunc` returns with `size` still 7 — the claim says the size field is
set to 0, but the code never touches it. -/
theorem itrunc_does_not_zero_size :
    Inode.itrunc bm8 d8 st8 = .ret (d8, st8) ∧ d8.size ≠ 0 := by
  exact ⟨rfl, by decide⟩

/-- C8 witness: `itrunc_spec` instantiated on the concrete `d8`, `st8`. -/
theorem itrunc_spec_witness : d8.size = 7 ∧ Inode.itrunc bm8 d8 st8 = .ret (d8, st8) := by
  have h : Inode.itrunc bm8 d8 st8 = .ret (d8, st8) := rfl
  have H := itrunc_spec bm8 d8 st8 d8 st8 h
  exact ⟨H.2.1.trans rfl, h⟩
